import Mathlib

set_option maxRecDepth 4000

/-!
Shallow embedding of the DDL formatter from `ddl_formatter_combined_4.py`
(class `DDLFormatter`).  Lines are modelled as `List Char`; Python strings
are ASCII here (the inputs the tool processes are SQL text).

The regex `\b(kw1|...|kwN)\b` (IGNORECASE) used by `_uppercase_keywords`
is embedded run-wise: because every keyword consists solely of letters and
both boundaries require a word/non-word transition, a match is exactly a
maximal run of word characters whose lowercased form is one of the
keywords, independently of the alternation order produced by joining the
Python set.

The regex `(CREATE(?:.|\s)+?(?:TABLE|VIEW)(?:\s+IF\s+NOT\s+EXISTS)?\s+)([^\s(]+)(.*)`
(IGNORECASE, used with `re.search`) is embedded as an explicit backtracking
matcher `searchCreate`: leftmost `CREATE`, then the shortest gap of at
least one character to a `TABLE`/`VIEW` keyword (with fallback to later
start positions), an optional `IF NOT EXISTS` clause (preferred when it
fits), mandatory whitespace, a maximal run of non-space non-`(` characters
as the identifier, and the rest of the line as the suffix.  The interior
`\s+` quantifiers are deterministic because each is followed by a
non-space literal.
-/

/-- ASCII model of Python's `\s` class and of `str.strip`'s whitespace. -/
def isSpaceChar (c : Char) : Bool :=
  decide (c = ' ') || decide (c = '\t') || decide (c = '\n') || decide (c = '\r') ||
  decide (c = Char.ofNat 11) || decide (c = Char.ofNat 12)

/-- ASCII model of Python's `\w` class (regex word character). -/
def isWordChar (c : Char) : Bool :=
  (decide ('a' ≤ c) && decide (c ≤ 'z')) || (decide ('A' ≤ c) && decide (c ≤ 'Z')) ||
  (decide ('0' ≤ c) && decide (c ≤ '9')) || decide (c = '_')

/-- ASCII uppercasing of a single character, modelling Python `str.upper`
on the ASCII inputs the formatter handles. -/
def upChar : Char → Char
  | 'a' => 'A' | 'b' => 'B' | 'c' => 'C' | 'd' => 'D' | 'e' => 'E' | 'f' => 'F'
  | 'g' => 'G' | 'h' => 'H' | 'i' => 'I' | 'j' => 'J' | 'k' => 'K' | 'l' => 'L'
  | 'm' => 'M' | 'n' => 'N' | 'o' => 'O' | 'p' => 'P' | 'q' => 'Q' | 'r' => 'R'
  | 's' => 'S' | 't' => 'T' | 'u' => 'U' | 'v' => 'V' | 'w' => 'W' | 'x' => 'X'
  | 'y' => 'Y' | 'z' => 'Z' | c => c

/-- ASCII lowercasing of a single character, modelling Python `str.lower`. -/
def downChar : Char → Char
  | 'A' => 'a' | 'B' => 'b' | 'C' => 'c' | 'D' => 'd' | 'E' => 'e' | 'F' => 'f'
  | 'G' => 'g' | 'H' => 'h' | 'I' => 'i' | 'J' => 'j' | 'K' => 'k' | 'L' => 'l'
  | 'M' => 'm' | 'N' => 'n' | 'O' => 'o' | 'P' => 'p' | 'Q' => 'q' | 'R' => 'r'
  | 'S' => 's' | 'T' => 't' | 'U' => 'u' | 'V' => 'v' | 'W' => 'w' | 'X' => 'x'
  | 'Y' => 'y' | 'Z' => 'z' | c => c

def lowerList (s : List Char) : List Char := s.map downChar

def upperList (s : List Char) : List Char := s.map upChar

/-- Python `str.lstrip()`. -/
def lstrip (s : List Char) : List Char := s.dropWhile isSpaceChar

/-- Python `str.rstrip()`. -/
def rstrip (s : List Char) : List Char := (s.reverse.dropWhile isSpaceChar).reverse

/-- Python `str.strip()`. -/
def stripL (s : List Char) : List Char := rstrip (lstrip s)

/-- Python `line[:len(line) - len(line.lstrip())]`: the leading whitespace. -/
def indentOfL (s : List Char) : List Char := s.takeWhile isSpaceChar

def lastIsParen (s : List Char) : Bool := decide (s.getLast? = some '(')

def headIsClose (s : List Char) : Bool := decide (s.head? = some ')')

/-- Decidable "p is a leading segment of s" used by the substring scan. -/
def isPrefixOfL : List Char → List Char → Bool
  | [], _ => true
  | _ :: _, [] => false
  | p :: ps, c :: cs => if p = c then isPrefixOfL ps cs else false

/-- Python's `pat in s` substring test. -/
def containsSub (pat : List Char) : List Char → Bool
  | [] => isPrefixOfL pat []
  | s@(_ :: rest) => isPrefixOfL pat s || containsSub pat rest

/-- The literal keyword set of `DDLFormatter.__init__` (lowercased there). -/
def sql_keywords : List (List Char) :=
  ["add".toList, "alter".toList, "and".toList, "as".toList, "asc".toList,
   "between".toList, "by".toList, "case".toList, "char".toList,
   "character".toList, "check".toList, "column".toList, "constraint".toList,
   "create".toList, "date".toList, "decimal".toList, "default".toList,
   "delete".toList, "desc".toList, "distinct".toList, "double".toList,
   "drop".toList, "else".toList, "end".toList, "exists".toList,
   "false".toList, "float".toList, "foreign".toList, "from".toList,
   "group".toList, "having".toList, "if".toList, "in".toList,
   "inner".toList, "insert".toList, "int".toList, "integer".toList,
   "into".toList, "is".toList, "join".toList, "key".toList, "left".toList,
   "like".toList, "limit".toList, "not".toList, "null".toList,
   "numeric".toList, "on".toList, "or".toList, "order".toList,
   "outer".toList, "precision".toList, "primary".toList,
   "references".toList, "replace".toList, "right".toList, "select".toList,
   "set".toList, "table".toList, "then".toList, "timestamp".toList,
   "to".toList, "true".toList, "union".toList, "unique".toList,
   "update".toList, "using".toList, "values".toList, "varchar".toList,
   "view".toList, "when".toList, "where".toList, "with".toList]

def isKeyword (w : List Char) : Bool := decide (w ∈ sql_keywords)

/-- What the regex substitution does to one whole-word run. -/
def kwmap (run : List Char) : List Char :=
  if isKeyword (lowerList run) then upperList run else run

/-- Fuelled worker for `_uppercase_keywords`; fuel bounds the length. -/
def ukGo : Nat → List Char → List Char
  | 0, s => s
  | _ + 1, [] => []
  | fuel + 1, c :: cs =>
    if isWordChar c then
      kwmap (c :: cs.takeWhile isWordChar) ++ ukGo fuel (cs.dropWhile isWordChar)
    else c :: ukGo fuel cs

/-- `DDLFormatter._uppercase_keywords`. -/
def uppercase_keywords (l : List Char) : List Char := ukGo l.length l

/-- The literal `'{{EDW_DB_NAME}}'` written by the formatter. -/
def phUpper : List Char :=
  ['{', '{', 'E', 'D', 'W', '_', 'D', 'B', '_', 'N', 'A', 'M', 'E', '}', '}']

/-- The literal `'{{edw_db_name}}'` it is replaced by in `format`. -/
def phLower : List Char :=
  ['{', '{', 'e', 'd', 'w', '_', 'd', 'b', '_', 'n', 'a', 'm', 'e', '}', '}']

/-- Fuelled worker for `str.replace('{{EDW_DB_NAME}}', '{{edw_db_name}}')`:
leftmost non-overlapping occurrences, scanning resumes after a replacement. -/
def rpGo : Nat → List Char → List Char
  | 0, s => s
  | _ + 1, [] => []
  | fuel + 1, c :: rest =>
    if isPrefixOfL phUpper (c :: rest) then phLower ++ rpGo fuel (rest.drop 14)
    else c :: rpGo fuel rest

def replacePH (s : List Char) : List Char := rpGo s.length s

/-- The per-line preprocessing of `format` before CREATE handling:
`self._uppercase_keywords(line).replace('{{EDW_DB_NAME}}', '{{edw_db_name}}')`. -/
def normalizedLine (l : List Char) : List Char := replacePH (uppercase_keywords l)

/- ### The CREATE-statement regex -/

def createL : List Char := ['c', 'r', 'e', 'a', 't', 'e']
def tableLow : List Char := ['t', 'a', 'b', 'l', 'e']
def viewLow : List Char := ['v', 'i', 'e', 'w']

/-- Case-insensitive literal match: consume `pat` (given lowercased). -/
def dropCI (pat : List Char) (s : List Char) : Option (List Char) :=
  if lowerList (s.take pat.length) = pat then some (s.drop pat.length) else none

/-- `\s+`: at least one whitespace character, consumed maximally. -/
def ws1 (s : List Char) : Option (List Char) :=
  match s with
  | [] => none
  | c :: _ => if isSpaceChar c then some (s.dropWhile isSpaceChar) else none

/-- The optional `\s+IF\s+NOT\s+EXISTS` clause. -/
def ifNotExists (s : List Char) : Option (List Char) :=
  (ws1 s).bind fun t =>
    (dropCI ['i', 'f'] t).bind fun t =>
      (ws1 t).bind fun t =>
        (dropCI ['n', 'o', 't'] t).bind fun t =>
          (ws1 t).bind fun t => dropCI ['e', 'x', 'i', 's', 't', 's'] t

def notIdentChar (c : Char) : Bool := isSpaceChar c || decide (c = '(')

/-- `\s+([^\s(]+)(.*)`: whitespace, then the identifier, then the suffix. -/
def finishIdent (t : List Char) : Option (List Char × List Char) :=
  match ws1 t with
  | none => none
  | some u =>
    let ident := u.takeWhile fun c => !notIdentChar c
    if ident.isEmpty then none else some (ident, u.drop ident.length)

/-- After `TABLE`/`VIEW`: try the `IF NOT EXISTS` branch first, as the
greedy `?` does, falling back to matching the identifier directly. -/
def afterKw (t : List Char) : Option (List Char × List Char) :=
  match ifNotExists t with
  | some t2 =>
    match finishIdent t2 with
    | some r => some r
    | none => finishIdent t
  | none => finishIdent t

/-- Try `TABLE` then `VIEW` at this position. -/
def tryKeywordAt (rest : List Char) : Option (List Char × List Char) :=
  match dropCI tableLow rest with
  | some t => afterKw t
  | none =>
    match dropCI viewLow rest with
    | some t => afterKw t
    | none => none

/-- The lazy `(?:.|\s)+?` gap: at least one character, shortest first. -/
def gapLoop : List Char → Option (List Char × List Char)
  | [] => none
  | _ :: rest =>
    match tryKeywordAt rest with
    | some r => some r
    | none => gapLoop rest

/-- `create_statement_regex.search`: returns `(group1, group2, group3)`.
Any text before the leftmost viable `CREATE` is outside every group. -/
def searchCreate : List Char → Option (List Char × List Char × List Char)
  | [] => none
  | l@(_ :: rest) =>
    match dropCI createL l with
    | some s0 =>
      match gapLoop s0 with
      | some (ident, sfx) =>
        some (l.take (l.length - ident.length - sfx.length), ident, sfx)
      | none => searchCreate rest
    | none => searchCreate rest

/- ### Splitting and joining -/

/-- Python `str.split(sep)` for a one-character separator. -/
def splitOnC (sep : Char) : List Char → List (List Char)
  | [] => [[]]
  | c :: rest =>
    if c = sep then [] :: splitOnC sep rest
    else
      match splitOnC sep rest with
      | [] => [[c]]
      | g :: gs => (c :: g) :: gs

/-- Python `sep.join(parts)` for a one-character separator. -/
def joinWith (sep : Char) : List (List Char) → List Char
  | [] => []
  | [g] => g
  | g :: gs => g ++ sep :: joinWith sep gs

def splitNl : List Char → List (List Char) := splitOnC '\n'
def joinNl : List (List Char) → List Char := joinWith '\n'
def splitDot : List Char → List (List Char) := splitOnC '.'
def joinDot : List (List Char) → List Char := joinWith '.'

def orReplaceLow : List Char := " or replace ".toList
def createOrReplaceTxt : List Char := "CREATE OR REPLACE ".toList
def TABLEUp : List Char := ['T', 'A', 'B', 'L', 'E']
def VIEWUp : List Char := ['V', 'I', 'E', 'W']

/-- `DDLFormatter._process_create_statement`. -/
def processCreate (line : List Char) : List Char :=
  match searchCreate line with
  | none => line
  | some (p, ident, sfx) =>
    let stype := if containsSub viewLow (lowerList p) then VIEWUp else TABLEUp
    let p2 :=
      if containsSub orReplaceLow (lowerList p) then p
      else createOrReplaceTxt ++ stype ++ [' ']
    let parts := splitDot ident
    if parts.length = 1 ∨ parts.length = 2 then
      p2 ++ phUpper ++ '.' :: ident ++ sfx
    else if parts.length = 3 then
      p2 ++ phUpper ++ '.' :: joinDot parts.tail ++ sfx
    else line

/- ### The per-line state machine of `format` -/

structure FmtState where
  insideColumns : Bool
  firstColumn : Bool
deriving DecidableEq, Repr

/-- The line `format` hands to the paren/comma stage (keyword-normalized,
placeholder-restored, CREATE-processed when the regex matches). -/
def effectiveLine (l : List Char) : List Char := processCreate (normalizedLine l)

/-- The pair (current line, `stripped_line`) after the CREATE step of the
loop body: `stripped_line` is recomputed only when the regex matched. -/
def resolveLine (l : List Char) : List Char × List Char :=
  match searchCreate (normalizedLine l) with
  | some _ => (processCreate (normalizedLine l), stripL (processCreate (normalizedLine l)))
  | none => (normalizedLine l, stripL l)

/-- Python `line[:line.rfind('(')]` (also faithful to `rfind` returning -1,
giving `line[:-1]`, though `format` only uses it when a `(` is present). -/
def beforeLastParen (l : List Char) : List Char :=
  match l.reverse.dropWhile (fun c => !decide (c = '(')) with
  | [] => l.dropLast
  | _ :: rest => rest.reverse

/-- The one or two lines emitted by the block-start (paren-split) branch. -/
def splitEmit (l2 : List Char) : List (List Char) :=
  (if (rstrip (beforeLastParen l2)).isEmpty then []
   else [rstrip (beforeLastParen l2)]) ++ [indentOfL l2 ++ ['(']]

/-- `re.sub(r',\s*$', '', line)`: drop one trailing comma together with
the whitespace after it, if the line ends that way. -/
def rsubComma (l : List Char) : List Char :=
  if (rstrip l).getLast? = some ',' then (rstrip l).dropLast else l

/-- The line emitted for a column line inside a block. -/
def columnEmit (first : Bool) (l2 : List Char) : List (List Char) :=
  if first then [rsubComma l2]
  else [indentOfL (rsubComma l2) ++ ',' :: lstrip (rsubComma l2)]

/-- One iteration of the loop in `DDLFormatter.format`: the emitted lines
and the successor state. -/
def stepLine (st : FmtState) (line : List Char) : List (List Char) × FmtState :=
  if !st.insideColumns && lastIsParen (rstrip (resolveLine line).2) then
    (splitEmit (resolveLine line).1, ⟨true, true⟩)
  else if st.insideColumns && headIsClose (resolveLine line).2 then
    ([(resolveLine line).1], ⟨false, st.firstColumn⟩)
  else if st.insideColumns && !(resolveLine line).2.isEmpty then
    (columnEmit st.firstColumn (resolveLine line).1, ⟨true, false⟩)
  else ([(resolveLine line).1], st)

/-- The whole loop, threading the state through the lines. -/
def formatLines : FmtState → List (List Char) → List (List Char)
  | _, [] => []
  | st, l :: ls => (stepLine st l).1 ++ formatLines (stepLine st l).2 ls

/-- `DDLFormatter.format`. -/
def format (ddl : List Char) : List Char :=
  joinNl (formatLines ⟨false, true⟩ (splitNl ddl))

/- ### Auxiliary predicates used by theorem statements -/

/-- A line that the per-line rewrites leave untouched. -/
def lineFixed (l : List Char) : Bool :=
  decide (normalizedLine l = l) && (searchCreate l).isNone

/-- A run of lines on which the state machine re-emits every line
verbatim, starting from the given state. -/
def fixedRun : Bool → Bool → List (List Char) → Bool
  | _, _, [] => true
  | false, f, l :: ls =>
    lineFixed l &&
      (if lastIsParen (rstrip (stripL l)) then
        decide (l = indentOfL l ++ ['(']) && fixedRun true true ls
      else fixedRun false f ls)
  | true, f, l :: ls =>
    lineFixed l &&
      (if headIsClose (stripL l) then fixedRun false f ls
      else if (stripL l).isEmpty then fixedRun true f ls
      else f && decide (rsubComma l = l) && fixedRun true false ls)

/-- Fuelled scan deciding that no maximal word run of the line is a
keyword (so the normalizer has nothing to uppercase). -/
def noKwGo : Nat → List Char → Bool
  | 0, _ => true
  | _ + 1, [] => true
  | fuel + 1, c :: cs =>
    if isWordChar c then
      !isKeyword (lowerList (c :: cs.takeWhile isWordChar)) &&
        noKwGo fuel (cs.dropWhile isWordChar)
    else noKwGo fuel cs

def noKeywordRun (l : List Char) : Bool := noKwGo l.length l

/- ### Basic list facts -/

theorem length_dropWhile_le (p : Char → Bool) (l : List Char) :
    (l.dropWhile p).length ≤ l.length := by
  induction l with
  | nil => simp
  | cons a l ih =>
    by_cases h : p a
    · simp only [List.dropWhile_cons, h, if_true, List.length_cons]
      omega
    · simp [List.dropWhile_cons, h]

theorem getLast?_dropWhile_concat (p : Char → Bool) (x : List Char) (c : Char)
    (hc : p c = false) : ((x ++ [c]).dropWhile p).getLast? = some c := by
  induction x with
  | nil => simp [List.dropWhile_cons, hc]
  | cons a x ih =>
    by_cases h : p a
    · simpa [List.dropWhile_cons, h] using ih
    · simp only [List.cons_append, List.dropWhile_cons, h, if_false, if_neg]
      rw [show a :: (x ++ [c]) = (a :: x) ++ [c] by simp]
      exact List.getLast?_concat _

/- ### Character-class facts -/

theorem not_word_of_space {c : Char} (h : isSpaceChar c = true) : isWordChar c = false := by
  simp only [isSpaceChar, Bool.or_eq_true, decide_eq_true_eq] at h
  rcases h with ((((h | h) | h) | h) | h) | h <;> subst h <;> decide

theorem isSpaceChar_upChar (c : Char) : isSpaceChar (upChar c) = isSpaceChar c := by
  unfold upChar
  split <;> rfl

theorem upChar_eq_close_iff (c : Char) : (upChar c = ')') ↔ (c = ')') := by
  unfold upChar
  split <;> first | exact Iff.rfl | decide

/- ### Fuel irrelevance and unfolding for the fuelled workers -/

theorem ukGo_nil (f : Nat) : ukGo f [] = [] := by cases f <;> rfl

theorem ukGo_irrel : ∀ (f g : Nat) (s : List Char),
    s.length ≤ f → s.length ≤ g → ukGo f s = ukGo g s := by
  intro f
  induction f with
  | zero =>
    intro g s hf _
    have hs : s = [] := List.length_eq_zero.mp (Nat.le_zero.mp hf)
    subst hs
    rw [ukGo_nil, ukGo_nil]
  | succ f ih =>
    intro g s hf hg
    cases s with
    | nil => rw [ukGo_nil, ukGo_nil]
    | cons c cs =>
      cases g with
      | zero => simp at hg
      | succ g =>
        have hf2 : cs.length ≤ f := by simpa using hf
        have hg2 : cs.length ≤ g := by simpa using hg
        show ukGo (f + 1) (c :: cs) = ukGo (g + 1) (c :: cs)
        rw [ukGo, ukGo]
        by_cases h : isWordChar c
        · rw [if_pos h, if_pos h]
          rw [ih g _ (le_trans (length_dropWhile_le _ _) hf2)
            (le_trans (length_dropWhile_le _ _) hg2)]
        · rw [if_neg h, if_neg h, ih g _ hf2 hg2]

theorem uk_nil : uppercase_keywords [] = [] := rfl

theorem uk_cons (c : Char) (cs : List Char) :
    uppercase_keywords (c :: cs) =
      if isWordChar c then
        kwmap (c :: cs.takeWhile isWordChar) ++
          uppercase_keywords (cs.dropWhile isWordChar)
      else c :: uppercase_keywords cs := by
  show ukGo (cs.length + 1) (c :: cs) = _
  rw [ukGo]
  by_cases h : isWordChar c
  · rw [if_pos h, if_pos h]
    rw [show uppercase_keywords (cs.dropWhile isWordChar) =
      ukGo (cs.dropWhile isWordChar).length (cs.dropWhile isWordChar) from rfl,
      ukGo_irrel _ _ _ (length_dropWhile_le _ _) (Nat.le_refl _)]
  · rw [if_neg h, if_neg h]
    rfl

theorem rpGo_nil (f : Nat) : rpGo f [] = [] := by cases f <;> rfl

theorem rpGo_irrel : ∀ (f g : Nat) (s : List Char),
    s.length ≤ f → s.length ≤ g → rpGo f s = rpGo g s := by
  intro f
  induction f with
  | zero =>
    intro g s hf _
    have hs : s = [] := List.length_eq_zero.mp (Nat.le_zero.mp hf)
    subst hs
    rw [rpGo_nil, rpGo_nil]
  | succ f ih =>
    intro g s hf hg
    cases s with
    | nil => rw [rpGo_nil, rpGo_nil]
    | cons c cs =>
      cases g with
      | zero => simp at hg
      | succ g =>
        have hf2 : cs.length ≤ f := by simpa using hf
        have hg2 : cs.length ≤ g := by simpa using hg
        show rpGo (f + 1) (c :: cs) = rpGo (g + 1) (c :: cs)
        rw [rpGo, rpGo]
        by_cases h : isPrefixOfL phUpper (c :: cs)
        · rw [if_pos h, if_pos h]
          have hd : (cs.drop 14).length ≤ cs.length := by
            rw [List.length_drop]
            omega
          rw [ih g _ (le_trans hd hf2) (le_trans hd hg2)]
        · rw [if_neg h, if_neg h, ih g _ hf2 hg2]

theorem rp_nil : replacePH [] = [] := rfl

theorem rp_cons (c : Char) (cs : List Char) :
    replacePH (c :: cs) =
      if isPrefixOfL phUpper (c :: cs) then phLower ++ replacePH (cs.drop 14)
      else c :: replacePH cs := by
  show rpGo (cs.length + 1) (c :: cs) = _
  rw [rpGo]
  by_cases h : isPrefixOfL phUpper (c :: cs)
  · rw [if_pos h, if_pos h]
    rw [show replacePH (cs.drop 14) = rpGo (cs.drop 14).length (cs.drop 14) from rfl]
    rw [rpGo_irrel _ _ _ (by rw [List.length_drop]; omega) (Nat.le_refl _)]
  · rw [if_neg h, if_neg h]
    rfl

theorem noKwGo_nil (f : Nat) : noKwGo f [] = true := by cases f <;> rfl

theorem noKwGo_irrel : ∀ (f g : Nat) (s : List Char),
    s.length ≤ f → s.length ≤ g → noKwGo f s = noKwGo g s := by
  intro f
  induction f with
  | zero =>
    intro g s hf _
    have hs : s = [] := List.length_eq_zero.mp (Nat.le_zero.mp hf)
    subst hs
    rw [noKwGo_nil, noKwGo_nil]
  | succ f ih =>
    intro g s hf hg
    cases s with
    | nil => rw [noKwGo_nil, noKwGo_nil]
    | cons c cs =>
      cases g with
      | zero => simp at hg
      | succ g =>
        have hf2 : cs.length ≤ f := by simpa using hf
        have hg2 : cs.length ≤ g := by simpa using hg
        show noKwGo (f + 1) (c :: cs) = noKwGo (g + 1) (c :: cs)
        rw [noKwGo, noKwGo]
        by_cases h : isWordChar c
        · rw [if_pos h, if_pos h,
            ih g _ (le_trans (length_dropWhile_le _ _) hf2)
              (le_trans (length_dropWhile_le _ _) hg2)]
        · rw [if_neg h, if_neg h, ih g _ hf2 hg2]

theorem noKw_cons (c : Char) (cs : List Char) :
    noKeywordRun (c :: cs) =
      if isWordChar c then
        !isKeyword (lowerList (c :: cs.takeWhile isWordChar)) &&
          noKeywordRun (cs.dropWhile isWordChar)
      else noKeywordRun cs := by
  show noKwGo (cs.length + 1) (c :: cs) = _
  rw [noKwGo]
  by_cases h : isWordChar c
  · rw [if_pos h, if_pos h]
    rw [show noKeywordRun (cs.dropWhile isWordChar) =
      noKwGo (cs.dropWhile isWordChar).length (cs.dropWhile isWordChar) from rfl,
      noKwGo_irrel _ _ _ (length_dropWhile_le _ _) (Nat.le_refl _)]
  · rw [if_neg h, if_neg h]
    rfl

/- ### Strip lemmas -/

theorem rstrip_eq_nil_iff (l : List Char) :
    rstrip l = [] ↔ ∀ x ∈ l, isSpaceChar x := by
  unfold rstrip
  rw [List.reverse_eq_nil_iff, List.dropWhile_eq_nil_iff]
  constructor
  · intro h x hx
    exact h x (List.mem_reverse.mpr hx)
  · intro h x hx
    exact h x (List.mem_reverse.mp hx)

theorem lstrip_eq_nil_iff (l : List Char) :
    lstrip l = [] ↔ ∀ x ∈ l, isSpaceChar x := List.dropWhile_eq_nil_iff

theorem rstrip_head {c : Char} (t : List Char) (hc : isSpaceChar c = false) :
    (rstrip (c :: t)).head? = some c := by
  unfold rstrip
  rw [List.head?_reverse, show (c :: t).reverse = t.reverse ++ [c] by simp]
  exact getLast?_dropWhile_concat _ _ _ hc

theorem lstrip_head_not_space {l : List Char} {c : Char}
    (h : (lstrip l).head? = some c) : isSpaceChar c = false := by
  have hx := List.head?_dropWhile_not isSpaceChar l
  rw [show l.dropWhile isSpaceChar = lstrip l from rfl, h] at hx
  exact hx

theorem lstrip_of_head {x : List Char} {y : Char} (h : x.head? = some y)
    (hy : isSpaceChar y = false) : lstrip x = x := by
  cases x with
  | nil => simp at h
  | cons a t =>
    have ha : a = y := by simpa using h
    subst ha
    exact List.dropWhile_cons_of_neg (by simp [hy])

theorem stripL_eq_nil_iff (l : List Char) : stripL l = [] ↔ lstrip l = [] := by
  constructor
  · intro h
    cases hm : lstrip l with
    | nil => rfl
    | cons c t =>
      have hc : isSpaceChar c = false := lstrip_head_not_space (by rw [hm]; rfl)
      unfold stripL at h
      rw [hm] at h
      have h2 := rstrip_head t hc
      rw [h] at h2
      simp at h2
  · intro h
    unfold stripL
    rw [h]
    rfl

theorem stripL_head (l : List Char) : (stripL l).head? = (lstrip l).head? := by
  unfold stripL
  cases hm : lstrip l with
  | nil => rfl
  | cons c t =>
    have hc : isSpaceChar c = false := lstrip_head_not_space (by rw [hm]; rfl)
    rw [rstrip_head t hc]
    rfl

theorem uk_head (c : Char) (cs : List Char) :
    (uppercase_keywords (c :: cs)).head? = some c ∨
      (uppercase_keywords (c :: cs)).head? = some (upChar c) := by
  rw [uk_cons]
  by_cases h : isWordChar c
  · rw [if_pos h]
    unfold kwmap
    by_cases hk : isKeyword (lowerList (c :: cs.takeWhile isWordChar))
    · rw [if_pos hk]
      right
      rfl
    · rw [if_neg hk]
      left
      rfl
  · rw [if_neg h]
    left
    rfl

theorem uk_ne_nil (c : Char) (cs : List Char) : uppercase_keywords (c :: cs) ≠ [] := by
  rcases uk_head c cs with h | h <;> intro hc <;> rw [hc] at h <;> simp at h

theorem rp_head (c : Char) (cs : List Char) : (replacePH (c :: cs)).head? = some c := by
  rw [rp_cons]
  by_cases h : isPrefixOfL phUpper (c :: cs)
  · rw [if_pos h]
    have hc : '{' = c := by
      simp only [phUpper, isPrefixOfL] at h
      split at h
      · assumption
      · exact absurd h (by simp)
    subst hc
    rfl
  · rw [if_neg h]
    rfl

theorem rp_ne_nil (c : Char) (cs : List Char) : replacePH (c :: cs) ≠ [] := by
  have h := rp_head c cs
  intro hc
  rw [hc] at h
  simp at h

theorem u_lstrip (l : List Char) :
    lstrip (uppercase_keywords l) = uppercase_keywords (lstrip l) := by
  induction l with
  | nil => rfl
  | cons c cs ih =>
    by_cases hs : isSpaceChar c
    · have hw : isWordChar c = false := not_word_of_space hs
      rw [uk_cons, if_neg (by simp [hw])]
      rw [show lstrip (c :: uppercase_keywords cs) = lstrip (uppercase_keywords cs) from
        List.dropWhile_cons_of_pos hs]
      rw [show lstrip (c :: cs) = lstrip cs from List.dropWhile_cons_of_pos hs]
      exact ih
    · have hfix : lstrip (uppercase_keywords (c :: cs)) = uppercase_keywords (c :: cs) := by
        rcases uk_head c cs with hy | hy
        · exact lstrip_of_head hy (by simpa using hs)
        · exact lstrip_of_head hy (by rw [isSpaceChar_upChar]; simpa using hs)
      rw [hfix, show lstrip (c :: cs) = c :: cs from List.dropWhile_cons_of_neg hs]

theorem r_lstrip (l : List Char) :
    lstrip (replacePH l) = replacePH (lstrip l) := by
  induction l with
  | nil => rfl
  | cons c cs ih =>
    by_cases hs : isSpaceChar c
    · have hp : isPrefixOfL phUpper (c :: cs) = false := by
        have hcne : ('{' : Char) ≠ c := by
          intro hc
          rw [← hc] at hs
          simp [isSpaceChar] at hs
        simp only [phUpper, isPrefixOfL]
        rw [if_neg hcne]
      rw [rp_cons, if_neg (by simp [hp])]
      rw [show lstrip (c :: replacePH cs) = lstrip (replacePH cs) from
        List.dropWhile_cons_of_pos hs]
      rw [show lstrip (c :: cs) = lstrip cs from List.dropWhile_cons_of_pos hs]
      exact ih
    · have hfix : lstrip (replacePH (c :: cs)) = replacePH (c :: cs) :=
        lstrip_of_head (rp_head c cs) (by simpa using hs)
      rw [hfix, show lstrip (c :: cs) = c :: cs from List.dropWhile_cons_of_neg hs]

theorem normalizedLine_lstrip (l : List Char) :
    lstrip (normalizedLine l) = replacePH (uppercase_keywords (lstrip l)) := by
  unfold normalizedLine
  rw [r_lstrip, u_lstrip]

theorem lstrip_nl_nil_iff (l : List Char) :
    lstrip (normalizedLine l) = [] ↔ lstrip l = [] := by
  rw [normalizedLine_lstrip]
  constructor
  · intro h
    cases hm : lstrip l with
    | nil => rfl
    | cons c t =>
      rw [hm] at h
      cases hu : uppercase_keywords (c :: t) with
      | nil => exact absurd hu (uk_ne_nil c t)
      | cons y z =>
        rw [hu] at h
        exact absurd h (rp_ne_nil y z)
  · intro h
    rw [h]
    rfl

/-- The stripped-line test for emptiness is insensitive to the keyword /
placeholder preprocessing of the line. -/
theorem stripNl_isEmpty (l : List Char) :
    (stripL (normalizedLine l)).isEmpty = (stripL l).isEmpty := by
  by_cases h : lstrip l = []
  · rw [List.isEmpty_iff.mpr ((stripL_eq_nil_iff _).mpr ((lstrip_nl_nil_iff l).mpr h)),
      List.isEmpty_iff.mpr ((stripL_eq_nil_iff _).mpr h)]
  · have h1 : (stripL (normalizedLine l)).isEmpty = false := by
      rw [Bool.eq_false_iff]
      intro hb
      exact h ((lstrip_nl_nil_iff l).mp ((stripL_eq_nil_iff _).mp (List.isEmpty_iff.mp hb)))
    have h2 : (stripL l).isEmpty = false := by
      rw [Bool.eq_false_iff]
      intro hb
      exact h ((stripL_eq_nil_iff _).mp (List.isEmpty_iff.mp hb))
    rw [h1, h2]

/-- The stripped-line test for a leading `)` is insensitive to the keyword /
placeholder preprocessing of the line. -/
theorem stripNl_headIsClose (l : List Char) :
    headIsClose (stripL (normalizedLine l)) = headIsClose (stripL l) := by
  unfold headIsClose
  rw [stripL_head, stripL_head, normalizedLine_lstrip]
  cases hm : lstrip l with
  | nil => rfl
  | cons c t =>
    cases hu : uppercase_keywords (c :: t) with
    | nil => exact absurd hu (uk_ne_nil c t)
    | cons y z =>
      rw [rp_head y z]
      have hy : y = c ∨ y = upChar c := by
        rcases uk_head c t with h | h <;> rw [hu] at h <;> simp at h <;> simp [h]
      apply decide_eq_decide.mpr
      rcases hy with hy | hy
      · rw [hy]
        simp
      · subst hy
        constructor
        · intro h
          have := (upChar_eq_close_iff c).mp (by simpa using h)
          simp [this]
        · intro h
          have hc : c = ')' := by simpa using h
          rw [hc]
          rfl

/- ### Unfolding the per-line step -/

theorem processCreate_of_none {l : List Char} (h : searchCreate l = none) :
    processCreate l = l := by
  unfold processCreate
  rw [h]

theorem resolveLine_some {l : List Char} {r : List Char × List Char × List Char}
    (h : searchCreate (normalizedLine l) = some r) :
    resolveLine l = (effectiveLine l, stripL (effectiveLine l)) := by
  unfold resolveLine effectiveLine
  rw [h]

theorem resolveLine_none {l : List Char} (h : searchCreate (normalizedLine l) = none) :
    resolveLine l = (normalizedLine l, stripL l) := by
  unfold resolveLine
  rw [h]

theorem effectiveLine_of_none {l : List Char} (h : searchCreate (normalizedLine l) = none) :
    effectiveLine l = normalizedLine l := by
  unfold effectiveLine
  exact processCreate_of_none h

theorem stepLine_eval (st : FmtState) (l : List Char) (l2 sv : List Char)
    (h : resolveLine l = (l2, sv)) :
    stepLine st l =
      if !st.insideColumns && lastIsParen (rstrip sv) then (splitEmit l2, ⟨true, true⟩)
      else if st.insideColumns && headIsClose sv then ([l2], ⟨false, st.firstColumn⟩)
      else if st.insideColumns && !sv.isEmpty then
        (columnEmit st.firstColumn l2, ⟨true, false⟩)
      else ([l2], st) := by
  unfold stepLine
  rw [h]

/-- Full characterization of the step taken while `insideColumns` holds:
the paren-split (block-start) branch is unreachable, a line whose stripped
form starts with `)` leaves the block, a blank line is passed through, and
any other line gets the column/comma treatment. -/
theorem stepLine_inside (f : Bool) (l : List Char) :
    stepLine ⟨true, f⟩ l =
      if headIsClose (stripL (effectiveLine l)) then ([effectiveLine l], ⟨false, f⟩)
      else if (stripL (effectiveLine l)).isEmpty then ([effectiveLine l], ⟨true, f⟩)
      else (columnEmit f (effectiveLine l), ⟨true, false⟩) := by
  have hfalse : ((false : Bool) = true) = False := by simp
  cases hs : searchCreate (normalizedLine l) with
  | some r =>
    rw [stepLine_eval ⟨true, f⟩ l _ _ (resolveLine_some hs)]
    simp only [Bool.not_true, Bool.false_and, Bool.true_and, hfalse, if_false]
    by_cases h1 : headIsClose (stripL (effectiveLine l))
    · rw [if_pos h1, if_pos h1]
    · rw [if_neg h1, if_neg h1]
      by_cases h2 : (stripL (effectiveLine l)).isEmpty
      · rw [if_pos h2, if_neg (by simp [h2])]
      · rw [if_pos (by simp [Bool.eq_false_iff.mpr h2]), if_neg h2]
  | none =>
    rw [stepLine_eval ⟨true, f⟩ l _ _ (resolveLine_none hs), effectiveLine_of_none hs]
    rw [stripNl_headIsClose, stripNl_isEmpty]
    simp only [Bool.not_true, Bool.false_and, Bool.true_and, hfalse, if_false]
    by_cases h1 : headIsClose (stripL l)
    · rw [if_pos h1, if_pos h1]
    · rw [if_neg h1, if_neg h1]
      by_cases h2 : (stripL l).isEmpty
      · rw [if_pos h2, if_neg (by simp [h2])]
      · rw [if_pos (by simp [Bool.eq_false_iff.mpr h2]), if_neg h2]

/- ### Split / join round trip -/

theorem splitOnC_ne_nil (sep : Char) (l : List Char) : splitOnC sep l ≠ [] := by
  cases l with
  | nil => simp [splitOnC]
  | cons c rest =>
    unfold splitOnC
    by_cases h : c = sep
    · rw [if_pos h]
      simp
    · rw [if_neg h]
      cases hs : splitOnC sep rest <;> simp

theorem joinWith_splitOnC (sep : Char) (l : List Char) :
    joinWith sep (splitOnC sep l) = l := by
  induction l with
  | nil => rfl
  | cons c rest ih =>
    unfold splitOnC
    by_cases h : c = sep
    · rw [if_pos h]
      cases hs : splitOnC sep rest with
      | nil => exact absurd hs (splitOnC_ne_nil sep rest)
      | cons g gs =>
        have ih2 : joinWith sep (g :: gs) = rest := by
          rw [← hs]
          exact ih
        calc joinWith sep ([] :: g :: gs) = sep :: joinWith sep (g :: gs) := rfl
          _ = c :: rest := by rw [ih2, h]
    · rw [if_neg h]
      cases hs : splitOnC sep rest with
      | nil => exact absurd hs (splitOnC_ne_nil sep rest)
      | cons g gs =>
        have ih2 : joinWith sep (g :: gs) = rest := by
          rw [← hs]
          exact ih
        cases gs with
        | nil =>
          show c :: g = c :: rest
          rw [show g = rest from ih2]
        | cons g2 gs2 =>
          show (c :: g) ++ sep :: joinWith sep (g2 :: gs2) = c :: rest
          rw [List.cons_append]
          have hg : g ++ sep :: joinWith sep (g2 :: gs2) = rest := ih2
          rw [hg]

theorem joinNl_splitNl (l : List Char) : joinNl (splitNl l) = l :=
  joinWith_splitOnC '\n' l

/- ### The fixed-point run -/

theorem beforeLastParen_openShape (ind : List Char) :
    beforeLastParen (ind ++ ['(']) = ind := by
  unfold beforeLastParen
  rw [List.reverse_append, show (['('] : List Char).reverse = ['('] from rfl]
  rw [show (['('] ++ ind.reverse : List Char) = '(' :: ind.reverse from rfl]
  rw [List.dropWhile_cons_of_neg (by simp)]
  simp

theorem lineFixed_spec {l : List Char} (h : lineFixed l = true) :
    normalizedLine l = l ∧ searchCreate l = none := by
  unfold lineFixed at h
  simp only [Bool.and_eq_true, decide_eq_true_eq, Option.isNone_iff_eq_none] at h
  exact h

theorem stepLine_outside (f : Bool) (l : List Char)
    (hscn : searchCreate (normalizedLine l) = none) :
    stepLine ⟨false, f⟩ l =
      if lastIsParen (rstrip (stripL l)) then (splitEmit (normalizedLine l), ⟨true, true⟩)
      else ([normalizedLine l], ⟨false, f⟩) := by
  rw [stepLine_eval _ _ _ _ (resolveLine_none hscn)]
  simp only [Bool.not_false, Bool.true_and, Bool.false_and]
  by_cases hp : lastIsParen (rstrip (stripL l))
  · rw [if_pos hp, if_pos hp]
  · rw [if_neg hp, if_neg hp, if_neg (by simp), if_neg (by simp)]

theorem fixedRun_formatLines : ∀ (ls : List (List Char)) (inside f : Bool),
    fixedRun inside f ls = true → formatLines ⟨inside, f⟩ ls = ls := by
  intro ls
  induction ls with
  | nil =>
    intro inside f _
    rfl
  | cons l ls ih =>
    intro inside f h
    show (stepLine ⟨inside, f⟩ l).1 ++ formatLines (stepLine ⟨inside, f⟩ l).2 ls = l :: ls
    cases inside with
    | false =>
      simp only [fixedRun, Bool.and_eq_true] at h
      obtain ⟨hfix, hrest⟩ := h
      obtain ⟨hnl, hsc⟩ := lineFixed_spec hfix
      have hscn : searchCreate (normalizedLine l) = none := by
        rw [hnl]
        exact hsc
      rw [stepLine_outside f l hscn, hnl]
      by_cases hpar : lastIsParen (rstrip (stripL l))
      · rw [if_pos hpar]
        rw [if_pos hpar] at hrest
        simp only [Bool.and_eq_true, decide_eq_true_eq] at hrest
        obtain ⟨hshape, hrun⟩ := hrest
        have hbp : beforeLastParen l = indentOfL l := by
          conv_lhs => rw [hshape]
          exact beforeLastParen_openShape _
        have hind : rstrip (indentOfL l) = [] := by
          apply (rstrip_eq_nil_iff _).mpr
          intro x hx
          have hall := List.all_takeWhile (p := isSpaceChar) (l := l)
          exact List.all_eq_true.mp hall x hx
        have hemit : splitEmit l = [l] := by
          unfold splitEmit
          rw [hbp, hind]
          simp only [List.isEmpty_nil, if_true, List.nil_append]
          rw [← hshape]
        rw [hemit]
        simp only [List.cons_append, List.nil_append]
        rw [ih true true hrun]
      · rw [if_neg hpar]
        rw [if_neg hpar] at hrest
        simp only [List.cons_append, List.nil_append]
        rw [ih false f hrest]
    | true =>
      simp only [fixedRun, Bool.and_eq_true] at h
      obtain ⟨hfix, hrest⟩ := h
      obtain ⟨hnl, hsc⟩ := lineFixed_spec hfix
      have hscn : searchCreate (normalizedLine l) = none := by
        rw [hnl]
        exact hsc
      have heff : effectiveLine l = l := by
        rw [effectiveLine_of_none hscn, hnl]
      rw [stepLine_inside f l, heff]
      by_cases hc : headIsClose (stripL l)
      · rw [if_pos hc]
        rw [if_pos hc] at hrest
        simp only [List.cons_append, List.nil_append]
        rw [ih false f hrest]
      · rw [if_neg hc]
        rw [if_neg hc] at hrest
        by_cases he : (stripL l).isEmpty
        · rw [if_pos he]
          rw [if_pos he] at hrest
          simp only [List.cons_append, List.nil_append]
          rw [ih true f hrest]
        · rw [if_neg he]
          rw [if_neg he] at hrest
          simp only [Bool.and_eq_true, decide_eq_true_eq] at hrest
          obtain ⟨⟨hf, hsub⟩, hrun⟩ := hrest
          subst hf
          have hemit : columnEmit true l = [l] := by
            unfold columnEmit
            rw [if_pos rfl, hsub]
          rw [hemit]
          simp only [List.cons_append, List.nil_append]
          rw [ih true false hrun]

/- ### No uppercase placeholder survives the replacement -/

theorem drop_phUpper_cons (k : Nat) (hk : k ≤ 14) :
    ∃ a, phUpper.drop k = a :: phUpper.drop (k + 1) := by
  interval_cases k <;> exact ⟨_, rfl⟩

theorem containsSub_phLower_append (t : List Char) :
    containsSub phUpper (phLower ++ t) = containsSub phUpper t := by
  simp [phLower, phUpper, containsSub, isPrefixOfL]

theorem isPrefixOfL_drop_phLower (t : List Char) (k : Nat) (hk : k ≤ 14) :
    isPrefixOfL (phUpper.drop k) (phLower ++ t) = false := by
  interval_cases k <;> simp [phUpper, phLower, isPrefixOfL]

theorem rp_no_partial : ∀ (s : List Char) (k : Nat), k ≤ 14 →
    isPrefixOfL (phUpper.drop k) s = false →
    isPrefixOfL (phUpper.drop k) (replacePH s) = false := by
  intro s
  induction s with
  | nil =>
    intro k hk hpre
    rw [rp_nil]
    exact hpre
  | cons c rest ih =>
    intro k hk hpre
    rw [rp_cons]
    by_cases hp : isPrefixOfL phUpper (c :: rest)
    · rw [if_pos hp]
      exact isPrefixOfL_drop_phLower _ k hk
    · rw [if_neg hp]
      obtain ⟨a, ha⟩ := drop_phUpper_cons k hk
      rw [ha] at hpre ⊢
      simp only [isPrefixOfL] at hpre ⊢
      by_cases hac : a = c
      · rw [if_pos hac] at hpre ⊢
        by_cases hk14 : k = 14
        · subst hk14
          rw [show phUpper.drop 15 = [] from rfl] at hpre
          exact absurd hpre (by simp [isPrefixOfL])
        · exact ih (k + 1) (by omega) hpre
      · rw [if_neg hac]
    
theorem rp_no_upper_aux : ∀ (n : Nat) (s : List Char), s.length ≤ n →
    containsSub phUpper (replacePH s) = false := by
  intro n
  induction n with
  | zero =>
    intro s hs
    have : s = [] := List.length_eq_zero.mp (Nat.le_zero.mp hs)
    subst this
    decide
  | succ n ih =>
    intro s hs
    cases s with
    | nil => decide
    | cons c rest =>
      have hrest : rest.length ≤ n := by simpa using hs
      rw [rp_cons]
      by_cases hp : isPrefixOfL phUpper (c :: rest)
      · rw [if_pos hp, containsSub_phLower_append]
        refine ih _ (le_trans ?_ hrest)
        rw [List.length_drop]
        omega
      · rw [if_neg hp]
        show (isPrefixOfL phUpper (c :: replacePH rest) || containsSub phUpper (replacePH rest)) = false
        have h1 : isPrefixOfL phUpper (c :: replacePH rest) = false := by
          have h0 : isPrefixOfL (phUpper.drop 0) (replacePH (c :: rest)) = false :=
            rp_no_partial (c :: rest) 0 (by omega) (by rw [List.drop_zero]; simp [hp])
          rw [List.drop_zero] at h0
          rw [rp_cons, if_neg hp] at h0
          exact h0
        rw [h1, ih rest hrest]
        rfl

/-- No occurrence of the uppercase placeholder survives the replacement. -/
theorem rp_no_upper (s : List Char) : containsSub phUpper (replacePH s) = false :=
  rp_no_upper_aux s.length s (Nat.le_refl _)

/- ### Decomposition facts for the keyword normalizer -/

theorem takeWhile_append_stop (p : Char → Bool) (a b : List Char)
    (h : a.dropWhile p ≠ []) : (a ++ b).takeWhile p = a.takeWhile p := by
  induction a with
  | nil => simp at h
  | cons c a2 ih =>
    by_cases hc : p c
    · rw [List.cons_append, List.takeWhile_cons_of_pos hc, List.takeWhile_cons_of_pos hc,
        ih (by rwa [List.dropWhile_cons_of_pos hc] at h)]
    · rw [List.cons_append, List.takeWhile_cons_of_neg hc, List.takeWhile_cons_of_neg hc]

theorem dropWhile_append_stop (p : Char → Bool) (a b : List Char)
    (h : a.dropWhile p ≠ []) : (a ++ b).dropWhile p = a.dropWhile p ++ b := by
  induction a with
  | nil => simp at h
  | cons c a2 ih =>
    by_cases hc : p c
    · rw [List.cons_append, List.dropWhile_cons_of_pos hc, List.dropWhile_cons_of_pos hc,
        ih (by rwa [List.dropWhile_cons_of_pos hc] at h)]
    · rw [List.cons_append, List.dropWhile_cons_of_neg hc, List.dropWhile_cons_of_neg hc,
        List.cons_append]

theorem getLast?_dropWhile_ne (p : Char → Bool) (a : List Char)
    (h : a.dropWhile p ≠ []) : (a.dropWhile p).getLast? = a.getLast? := by
  induction a with
  | nil => simp at h
  | cons c a2 ih =>
    by_cases hc : p c
    · rw [List.dropWhile_cons_of_pos hc] at h ⊢
      rw [ih h]
      have ha2 : a2 ≠ [] := by
        intro he
        rw [he] at h
        simp at h
      cases a2 with
      | nil => exact absurd rfl ha2
      | cons d a3 => rw [List.getLast?_cons_cons]
    · rw [List.dropWhile_cons_of_neg hc]

/-- A non-word character right of `pre` keeps keyword runs from crossing
the boundary, so the normalizer distributes over the append. -/
theorem uk_append_boundary_aux : ∀ (n : Nat) (pre x : List Char), pre.length ≤ n →
    (pre = [] ∨ ∃ w, pre.getLast? = some w ∧ isWordChar w = false) →
    uppercase_keywords (pre ++ x) = uppercase_keywords pre ++ uppercase_keywords x := by
  intro n
  induction n with
  | zero =>
    intro pre x hn _
    have : pre = [] := List.length_eq_zero.mp (Nat.le_zero.mp hn)
    subst this
    rfl
  | succ n ih =>
    intro pre x hn hb
    cases pre with
    | nil => rfl
    | cons c pre2 =>
      rcases hb with hb | ⟨w, hw1, hw2⟩
      · exact absurd hb (by simp)
      by_cases hword : isWordChar c
      · have hpre2 : pre2 ≠ [] := by
          intro he
          subst he
          have hcw : c = w := by simpa using hw1
          rw [← hcw, hword] at hw2
          exact absurd hw2 (by simp)
        have hlast2 : pre2.getLast? = some w := by
          cases pre2 with
          | nil => exact absurd rfl hpre2
          | cons d pre3 => rwa [List.getLast?_cons_cons] at hw1
        have hne : pre2.dropWhile isWordChar ≠ [] := by
          intro he
          have hall := List.dropWhile_eq_nil_iff.mp he
          have hwmem : w ∈ pre2 :=
            List.mem_of_mem_getLast? (by rw [hlast2]; rfl)
          rw [hall w hwmem] at hw2
          exact absurd hw2 (by simp)
        rw [List.cons_append, uk_cons, if_pos hword,
          takeWhile_append_stop _ _ _ hne, dropWhile_append_stop _ _ _ hne,
          uk_cons, if_pos hword]
        rw [ih (pre2.dropWhile isWordChar) x
          (le_trans (length_dropWhile_le _ _) (by simpa using hn))
          (Or.inr ⟨w, by rw [getLast?_dropWhile_ne _ _ hne]; exact hlast2, hw2⟩)]
        rw [List.append_assoc]
      · have hb2 : pre2 = [] ∨ ∃ v, pre2.getLast? = some v ∧ isWordChar v = false := by
          cases pre2 with
          | nil => exact Or.inl rfl
          | cons d pre3 =>
            refine Or.inr ⟨w, ?_, hw2⟩
            rwa [List.getLast?_cons_cons] at hw1
        rw [List.cons_append, uk_cons, if_neg hword, uk_cons, if_neg hword,
          ih pre2 x (by simpa using hn) hb2, List.cons_append]

theorem uk_append_boundary (pre x : List Char)
    (hb : pre = [] ∨ ∃ w, pre.getLast? = some w ∧ isWordChar w = false) :
    uppercase_keywords (pre ++ x) = uppercase_keywords pre ++ uppercase_keywords x :=
  uk_append_boundary_aux pre.length pre x (Nat.le_refl _) hb

/-- A whole word run followed by a boundary is rewritten by `kwmap` alone. -/
theorem uk_run (run post : List Char) (hne : run ≠ [])
    (hall : ∀ a ∈ run, isWordChar a)
    (hpost : post = [] ∨ ∃ w, post.head? = some w ∧ isWordChar w = false) :
    uppercase_keywords (run ++ post) = kwmap run ++ uppercase_keywords post := by
  cases run with
  | nil => exact absurd rfl hne
  | cons c run2 =>
    have hc : isWordChar c := hall c (by simp)
    have hrun2 : ∀ a ∈ run2, isWordChar a = true := fun a ha => hall a (by simp [ha])
    have htw : (run2 ++ post).takeWhile isWordChar = run2 := by
      rw [List.takeWhile_append_of_pos hrun2]
      rcases hpost with hp | ⟨w, hw1, hw2⟩
      · subst hp
        simp
      · cases post with
        | nil => simp
        | cons d post2 =>
          have hd : d = w := by simpa using hw1
          subst hd
          rw [List.takeWhile_cons_of_neg (by simp [hw2]), List.append_nil]
    have hdw : (run2 ++ post).dropWhile isWordChar = post := by
      rw [List.dropWhile_append_of_pos hrun2]
      rcases hpost with hp | ⟨w, hw1, hw2⟩
      · subst hp
        rfl
      · cases post with
        | nil => rfl
        | cons d post2 =>
          have hd : d = w := by simpa using hw1
          subst hd
          exact List.dropWhile_cons_of_neg (by simp [hw2])
    rw [List.cons_append, uk_cons, if_pos hc, htw, hdw]

/-- When no maximal word run is a keyword, the normalizer is the identity. -/
theorem noKw_fixed_aux : ∀ (n : Nat) (l : List Char), l.length ≤ n →
    noKeywordRun l = true → uppercase_keywords l = l := by
  intro n
  induction n with
  | zero =>
    intro l hn _
    have : l = [] := List.length_eq_zero.mp (Nat.le_zero.mp hn)
    subst this
    rfl
  | succ n ih =>
    intro l hn h
    cases l with
    | nil => rfl
    | cons c cs =>
      rw [noKw_cons] at h
      rw [uk_cons]
      by_cases hw : isWordChar c
      · rw [if_pos hw] at h ⊢
        simp only [Bool.and_eq_true, Bool.not_eq_eq_eq_not, Bool.not_true] at h
        obtain ⟨hk, hrun⟩ := h
        rw [show kwmap (c :: cs.takeWhile isWordChar) = c :: cs.takeWhile isWordChar from by
          unfold kwmap
          rw [if_neg (by simp [hk])]]
        rw [ih _ (le_trans (length_dropWhile_le _ _) (by simpa using hn)) hrun]
        rw [List.cons_append, List.takeWhile_append_dropWhile]
      · rw [if_neg hw] at h ⊢
        rw [ih _ (by simpa using hn) h]

theorem noKw_fixed (l : List Char) (h : noKeywordRun l = true) :
    uppercase_keywords l = l :=
  noKw_fixed_aux l.length l (Nat.le_refl _) h

/- ### Claim theorems -/

/-- C1: for the single input line `CREATE TABLE foo.bar (` (no leading
indentation), `format` returns exactly two lines: first
`CREATE OR REPLACE TABLE {{EDW_DB_NAME}}.foo.bar` (prefix canonicalized,
database placeholder prepended to the two-part identifier, keywords
uppercase), then `(` alone carrying the source line's (empty)
indentation. -/
theorem c1_create_table_line_split :
    format ("CREATE TABLE foo.bar (".toList) =
      "CREATE OR REPLACE TABLE ".toList ++ phUpper ++ ".foo.bar\n(".toList := by
  decide

/-- C2: while the state machine is in INSIDE_COLUMNS, a line whose
stripped content is non-empty and does not start with `)` first loses any
trailing comma (with trailing whitespace); if `firstColumn` is true the
result is emitted as-is and `firstColumn` becomes false; otherwise the
emitted line is the leading indentation, a comma, and the left-stripped
content with no space in between. -/
theorem c2_inside_columns_comma_handling (l : List Char) (f : Bool)
    (h1 : stripL (effectiveLine l) ≠ [])
    (h2 : (stripL (effectiveLine l)).head? ≠ some ')') :
    stepLine ⟨true, f⟩ l =
      (if f then [rsubComma (effectiveLine l)]
       else [indentOfL (rsubComma (effectiveLine l)) ++
         ',' :: lstrip (rsubComma (effectiveLine l))],
       ⟨true, false⟩) := by
  rw [stepLine_inside]
  rw [if_neg (by simp only [headIsClose, decide_eq_true_eq]; exact h2)]
  rw [if_neg (by simp only [List.isEmpty_iff]; exact h1)]
  unfold columnEmit
  rfl

theorem c2_inside_columns_comma_handling_witness :
    stripL (effectiveLine ("  b INT,".toList)) ≠ [] ∧
    (stripL (effectiveLine ("  b INT,".toList))).head? ≠ some ')' ∧
    stepLine ⟨true, false⟩ ("  b INT,".toList) = (["  ,b INT".toList], ⟨true, false⟩) :=
  ⟨by decide, by decide,
    (c2_inside_columns_comma_handling ("  b INT,".toList) false (by decide)
      (by decide)).trans (by decide)⟩

/-- C3 (counterexample): on `NAME (\n  a INT,\n  b INT,\n  c INT\n)` the
code emits the moved comma directly adjacent to the content (`,b INT`),
not with a separating space as the claimed output `  , b INT` expects. -/
theorem c3_counterexample :
    format ("NAME (\n  a INT,\n  b INT,\n  c INT\n)".toList) =
      "NAME\n(\n  a INT\n  ,b INT\n  ,c INT\n)".toList ∧
    format ("NAME (\n  a INT,\n  b INT,\n  c INT\n)".toList) ≠
      "NAME\n(\n  a INT\n  , b INT\n  , c INT\n)".toList := by
  decide

/-- C3 (amended): for the input `NAME (\n  a INT,\n  b INT,\n  c INT\n)`,
`format` returns exactly `NAME\n(\n  a INT\n  ,b INT\n  ,c INT\n)` -
opening parenthesis on its own line, first column without a comma prefix,
each subsequent column prefixed with a comma placed directly against the
content, and no other comma present. -/
theorem c3_amended_block_output :
    format ("NAME (\n  a INT,\n  b INT,\n  c INT\n)".toList) =
      "NAME\n(\n  a INT\n  ,b INT\n  ,c INT\n)".toList := by
  decide

/-- C4 (counterexample): `format` is not a fixed point on already
formatted, self-consistent text: `select 1` (no parentheses, no stray
commas) still gets keyword-uppercased, and a formatted two-column block
gains a second leading comma on its continuation line. -/
theorem c4_counterexample :
    format ("select 1".toList) ≠ "select 1".toList ∧
    format ("NAME\n(\n  a INT\n  ,b INT\n)".toList) ≠
      "NAME\n(\n  a INT\n  ,b INT\n)".toList ∧
    format ("NAME\n(\n  a INT\n  ,b INT\n)".toList) =
      "NAME\n(\n  a INT\n  ,,b INT\n)".toList := by
  refine ⟨by decide, by decide, by decide⟩

/-- C4 (amended): `format` returns unchanged any text whose lines survive
the per-line rewrites verbatim: every line is unchanged by keyword
uppercasing and placeholder replacement and matches no CREATE header;
outside a block, a line ending in `(` after stripping is indentation
followed by `(` alone; inside a block, each line is the closing line,
blank, or - only while `firstColumn` is still true - a single column
line with no trailing comma.  (A sufficient condition: already-formatted
blocks with two or more column lines are excluded, since the
counterexample shows a re-run prepends a further comma there.) -/
theorem c4_amended_fixed_point (s : List Char)
    (h : fixedRun false true (splitNl s) = true) : format s = s := by
  unfold format
  rw [fixedRun_formatLines (splitNl s) false true h, joinNl_splitNl]

theorem c4_amended_fixed_point_witness :
    fixedRun false true (splitNl ("NAME\n(\n  a INT\n)".toList)) = true ∧
    format ("NAME\n(\n  a INT\n)".toList) = "NAME\n(\n  a INT\n)".toList :=
  ⟨by decide, c4_amended_fixed_point ("NAME\n(\n  a INT\n)".toList) (by decide)⟩

/-- C5 (counterexample): when the captured identifier has more than three
dot-separated parts the CREATE stage returns its input line, but that
input has already been keyword-uppercased by the earlier stage, so the
original line is not restored: keyword-case changes survive. -/
theorem c5_counterexample :
    format ("create table a.b.c.d x".toList) = "CREATE TABLE a.b.c.d x".toList ∧
    format ("create table a.b.c.d x".toList) ≠ "create table a.b.c.d x".toList := by
  refine ⟨by decide, by decide⟩

/-- C5 (amended): if the CREATE-statement regex matches a line but the
captured identifier splits on `.` into zero parts or more than three
parts, the CREATE canonicalizer returns its input line unchanged - no
prefix canonicalization and no identifier rewriting - treating the match
as a false positive; consequently the line that continues through
`format`'s pipeline is the keyword-uppercased, placeholder-normalized
line, so the earlier keyword-case changes survive (contrary to the
original claim). -/
theorem c5_amended_false_positive :
    (∀ l p i s : List Char, searchCreate l = some (p, i, s) →
      (splitDot i).length = 0 ∨ 3 < (splitDot i).length →
      processCreate l = l) ∧
    (∀ l p i s : List Char, searchCreate (normalizedLine l) = some (p, i, s) →
      (splitDot i).length = 0 ∨ 3 < (splitDot i).length →
      effectiveLine l = normalizedLine l) := by
  have hroll : ∀ l p i s : List Char, searchCreate l = some (p, i, s) →
      (splitDot i).length = 0 ∨ 3 < (splitDot i).length → processCreate l = l := by
    intro l p i s h hparts
    unfold processCreate
    rw [h]
    dsimp only
    rw [if_neg (by rcases hparts with h0 | h4 <;> omega)]
    rw [if_neg (by rcases hparts with h0 | h4 <;> omega)]
  refine ⟨hroll, fun l p i s h hparts => ?_⟩
  unfold effectiveLine
  exact hroll _ p i s h hparts

theorem c5_amended_false_positive_witness :
    searchCreate ("CREATE TABLE a.b.c.d x".toList) =
      some ("CREATE TABLE ".toList, "a.b.c.d".toList, " x".toList) ∧
    processCreate ("CREATE TABLE a.b.c.d x".toList) = "CREATE TABLE a.b.c.d x".toList ∧
    effectiveLine ("create table a.b.c.d x".toList) =
      normalizedLine ("create table a.b.c.d x".toList) :=
  ⟨by decide,
    c5_amended_false_positive.1 ("CREATE TABLE a.b.c.d x".toList) ("CREATE TABLE ".toList)
      ("a.b.c.d".toList) (" x".toList) (by decide) (by decide),
    c5_amended_false_positive.2 ("create table a.b.c.d x".toList) ("CREATE TABLE ".toList)
      ("a.b.c.d".toList) (" x".toList) (by decide) (by decide)⟩

/-- C6: when the captured identifier has exactly three dot-separated
parts `database.schema.table`, the rewritten identifier is the
placeholder, `.`, the schema part, `.`, and the table part - the original
database component is discarded; in particular `create table a.b.c (`
yields the identifier `{{EDW_DB_NAME}}.b.c`. -/
theorem c6_three_part_identifier :
    (∀ l p i s d sc tb : List Char,
      searchCreate l = some (p, i, s) →
      splitDot i = [d, sc, tb] →
      ∃ q, processCreate l = q ++ phUpper ++ '.' :: (sc ++ '.' :: tb) ++ s) ∧
    format ("create table a.b.c (".toList) =
      "CREATE OR REPLACE TABLE ".toList ++ phUpper ++ ".b.c\n(".toList := by
  constructor
  · intro l p i s d sc tb h hsplit
    refine ⟨if containsSub orReplaceLow (lowerList p) then p
      else createOrReplaceTxt ++
        (if containsSub viewLow (lowerList p) then VIEWUp else TABLEUp) ++ [' '], ?_⟩
    simp [processCreate, h, hsplit, joinDot, joinWith]
  · decide

theorem c6_three_part_identifier_witness :
    searchCreate ("CREATE TABLE a.b.c x".toList) =
      some ("CREATE TABLE ".toList, "a.b.c".toList, " x".toList) ∧
    splitDot ("a.b.c".toList) = ["a".toList, "b".toList, "c".toList] ∧
    ∃ q, processCreate ("CREATE TABLE a.b.c x".toList) =
      q ++ phUpper ++ '.' :: ("b".toList ++ '.' :: "c".toList) ++ " x".toList :=
  ⟨by decide, by decide,
    c6_three_part_identifier.1 ("CREATE TABLE a.b.c x".toList) ("CREATE TABLE ".toList)
      ("a.b.c".toList) (" x".toList) ("a".toList) ("b".toList) ("c".toList)
      (by decide) (by decide)⟩

/-- C7: the line handed to CREATE-statement processing is the keyword
normalized line with every occurrence of the uppercased placeholder
`{{EDW_DB_NAME}}` forced back to the canonical `{{edw_db_name}}`: no
uppercase placeholder occurrence remains after the replacement, and a
lone occurrence is rewritten to the lowercase-interior form. -/
theorem c7_placeholder_restored :
    (∀ l : List Char, containsSub phUpper (normalizedLine l) = false) ∧
    normalizedLine ("x ".toList ++ phUpper ++ " y".toList) =
      "x ".toList ++ phLower ++ " y".toList := by
  constructor
  · intro l
    unfold normalizedLine
    exact rp_no_upper _
  · decide

/-- C8: the keyword normalizer uppercases exactly the whole-word,
case-insensitive keyword occurrences: a maximal word run bounded by
non-word characters (or the line ends) is rewritten by `kwmap` alone
(uppercased precisely when its lowercase form is a keyword), a line none
of whose word runs is a keyword is returned unchanged, and in particular
`orderid` in `orderid INT` is never altered while standalone `int` is
uppercased. -/
theorem c8_keyword_normalizer :
    (∀ pre run post : List Char,
      run ≠ [] → (∀ a ∈ run, isWordChar a) →
      (pre = [] ∨ ∃ w, pre.getLast? = some w ∧ isWordChar w = false) →
      (post = [] ∨ ∃ w, post.head? = some w ∧ isWordChar w = false) →
      uppercase_keywords (pre ++ run ++ post) =
        uppercase_keywords pre ++ kwmap run ++ uppercase_keywords post) ∧
    (∀ l : List Char, noKeywordRun l = true → uppercase_keywords l = l) ∧
    uppercase_keywords ("orderid INT".toList) = "orderid INT".toList ∧
    uppercase_keywords ("orderid int".toList) = "orderid INT".toList := by
  refine ⟨?_, noKw_fixed, by decide, by decide⟩
  intro pre run post h1 h2 h3 h4
  rw [List.append_assoc, uk_append_boundary pre (run ++ post) h3,
    uk_run run post h1 h2 h4, ← List.append_assoc]

theorem c8_keyword_normalizer_witness :
    uppercase_keywords ("x ".toList ++ "int".toList ++ " y".toList) = "x INT y".toList := by
  rw [c8_keyword_normalizer.1 ("x ".toList) ("int".toList) (" y".toList) (by decide)
    (by decide) (Or.inr ⟨' ', by decide, by decide⟩) (Or.inr ⟨' ', by decide, by decide⟩)]
  decide

/-- C9: `format` is a total, deterministic function from strings to
strings: every input (including the empty string and text with unmatched
parentheses) has a unique output, the empty string maps to the empty
string, and the malformed input `(((` yields a definite output. -/
theorem c9_total_deterministic :
    (∀ s : List Char, ∃! r : List Char, format s = r) ∧
    format [] = [] ∧
    format ("(((".toList) = "((\n(".toList := by
  refine ⟨fun s => ⟨format s, rfl, fun r h => h.symm⟩, by decide, by decide⟩

/-- C10: the state machine never tracks nested blocks: while
`insideColumns` holds, the paren-split branch is unreachable (a line
whose stripped form ends in `(` receives ordinary column/comma handling,
as the `  nested (` instance shows), and any line whose stripped form
starts with `)` returns the state to OUTSIDE_COLUMNS regardless of the
parenthesis balance of the lines in between. -/
theorem c10_no_nesting :
    (∀ (f : Bool) (l : List Char),
      stepLine ⟨true, f⟩ l =
        if headIsClose (stripL (effectiveLine l)) then ([effectiveLine l], ⟨false, f⟩)
        else if (stripL (effectiveLine l)).isEmpty then ([effectiveLine l], ⟨true, f⟩)
        else (columnEmit f (effectiveLine l), ⟨true, false⟩)) ∧
    stepLine ⟨true, false⟩ ("  nested (".toList) =
      (["  ,nested (".toList], ⟨true, false⟩) ∧
    stepLine ⟨true, false⟩ ("  ) done".toList) =
      (["  ) done".toList], ⟨false, false⟩) :=
  ⟨stepLine_inside, by decide, by decide⟩
